import Mathlib

/-!
Verification of the `dmarket` double-auction market engine
(`src/dmarket/engine.py`, class `MarketEngine`).

The embedding models:
* `match` (here `matchFn` / `matchEffect`, since `match` is reserved):
  Python sorts the two argument lists **in place** (`bids.sort(reverse=True)`,
  `asks.sort()`); tuples compare lexicographically, so the sort key is the
  whole `(price, agent_id)` pair.  `matchEffect` returns the deals together
  with the final (sorted) contents of the two caller-visible lists, making the
  in-place mutation observable in the pure model.
* `step`: collects offers into bid/ask lists in dict iteration order
  (insertion order), raising on unknown agents (modelled as `none`), then
  matches, appends to the histories (the very lists that `match` just sorted
  in place), increments `time`, marks dealt agents done, and applies the
  termination rule.
* `reset` / construction.

Python `dict` values are modelled as association lists in insertion order
(`dictSet` mimics `d[k] = v`), Python `set` as `Finset`, prices as `ℚ`.
-/

namespace DMarket

/-- Agent identifiers (`agent_id` in the source). -/
abbrev AgentId := Nat

/-- Offer prices.  The source uses Python numbers; `(bid + ask) / 2` is exact
rational arithmetic on the inputs the spec discusses. -/
abbrev Price := ℚ

/-- The comparison realised by Python's `bids.sort(reverse=True)` on
`(price, agent_id)` tuples: `x` may precede `y` iff `y ≤ x` in the
lexicographic order on the whole pair. -/
def bidOrder (x y : Price × AgentId) : Prop :=
  y.1 < x.1 ∨ (y.1 = x.1 ∧ y.2 ≤ x.2)

/-- The comparison realised by Python's `asks.sort()` on `(price, agent_id)`
tuples: `x` may precede `y` iff `x ≤ y` lexicographically. -/
def askOrder (x y : Price × AgentId) : Prop :=
  x.1 < y.1 ∨ (x.1 = y.1 ∧ x.2 ≤ y.2)

instance : DecidableRel bidOrder := fun x y => by
  unfold bidOrder; exact inferInstance

instance : DecidableRel askOrder := fun x y => by
  unfold askOrder; exact inferInstance

instance : IsTotal (Price × AgentId) bidOrder where
  total x y := by
    unfold bidOrder
    rcases lt_trichotomy x.1 y.1 with h | h | h
    · exact Or.inr (Or.inl h)
    · rcases Nat.le_total x.2 y.2 with h2 | h2
      · exact Or.inr (Or.inr ⟨h, h2⟩)
      · exact Or.inl (Or.inr ⟨h.symm, h2⟩)
    · exact Or.inl (Or.inl h)

instance : IsTrans (Price × AgentId) bidOrder where
  trans x y z hxy hyz := by
    unfold bidOrder at *
    rcases hxy with h1 | ⟨h1, h1'⟩ <;> rcases hyz with h2 | ⟨h2, h2'⟩
    · exact Or.inl (lt_trans h2 h1)
    · exact Or.inl (h2.trans_lt h1)
    · exact Or.inl (h2.trans_eq h1)
    · exact Or.inr ⟨h2.trans h1, le_trans h2' h1'⟩

instance : IsTotal (Price × AgentId) askOrder where
  total x y := by
    unfold askOrder
    rcases lt_trichotomy x.1 y.1 with h | h | h
    · exact Or.inl (Or.inl h)
    · rcases Nat.le_total x.2 y.2 with h2 | h2
      · exact Or.inl (Or.inr ⟨h, h2⟩)
      · exact Or.inr (Or.inr ⟨h.symm, h2⟩)
    · exact Or.inr (Or.inl h)

instance : IsTrans (Price × AgentId) askOrder where
  trans x y z hxy hyz := by
    unfold askOrder at *
    rcases hxy with h1 | ⟨h1, h1'⟩ <;> rcases hyz with h2 | ⟨h2, h2'⟩
    · exact Or.inl (lt_trans h1 h2)
    · exact Or.inl (h1.trans_eq h2)
    · exact Or.inl (h1.trans_lt h2)
    · exact Or.inr ⟨h1.trans h2, le_trans h1' h2'⟩

/-- Result of `bids.sort(reverse=True)`: descending in `(price, agent_id)`.
Python's sort is stable; so is insertion sort with a reflexive total order. -/
def sortBids (bids : List (Price × AgentId)) : List (Price × AgentId) :=
  List.insertionSort bidOrder bids

/-- Result of `asks.sort()`: ascending in `(price, agent_id)`. -/
def sortAsks (asks : List (Price × AgentId)) : List (Price × AgentId) :=
  List.insertionSort askOrder asks

/-- Python dict assignment `d[k] = v` on an association list kept in key
insertion order: overwrite in place if the key exists, else append. -/
def dictSet (d : List (AgentId × Price)) (k : AgentId) (v : Price) :
    List (AgentId × Price) :=
  match d with
  | [] => [(k, v)]
  | (k', v') :: rest => if k' = k then (k, v) :: rest else (k', v') :: dictSet rest k v

/-- Python dict lookup `d.get(k)`. -/
def dictGet (d : List (AgentId × Price)) (k : AgentId) : Option Price :=
  match d with
  | [] => none
  | (k', v') :: rest => if k' = k then some v' else dictGet rest k

/-- The `for ... in zip(bids[0:n], asks[0:n])` loop of `MarketEngine.match`:
walk the two sorted lists in lockstep (the zip bound `n = min` is implicit in
the simultaneous recursion), recording the mid-price under both ids while
`bid >= ask`, and stopping at the first failure. -/
def matchLoop :
    List (Price × AgentId) → List (Price × AgentId) → List (AgentId × Price) →
    List (AgentId × Price)
  | (bid, buyer_id) :: bs, (ask, seller_id) :: rest, deals =>
    if ask ≤ bid then
      matchLoop bs rest
        (dictSet (dictSet deals buyer_id ((bid + ask) / 2)) seller_id ((bid + ask) / 2))
    else deals
  | _, _, deals => deals

/-- The deals returned by `MarketEngine.match(bids, asks)`. -/
def matchFn (bids asks : List (Price × AgentId)) : List (AgentId × Price) :=
  matchLoop (sortBids bids) (sortAsks asks) []

/-- `MarketEngine.match` with its side effect made explicit: the triple of the
returned deals and the final contents of the two list arguments, which the
Python code sorts **in place** (the caller's lists are mutated). -/
def matchEffect (bids asks : List (Price × AgentId)) :
    List (AgentId × Price) × List (Price × AgentId) × List (Price × AgentId) :=
  (matchFn bids asks, sortBids bids, sortAsks asks)

/-- State of a `MarketEngine` object. -/
structure MarketEngine where
  buyers : Finset AgentId
  sellers : Finset AgentId
  max_steps : Nat
  time : Nat
  done : Finset AgentId
  offer_history : List (List (Price × AgentId) × List (Price × AgentId))
  deal_history : List (List (AgentId × Price))
deriving DecidableEq

namespace MarketEngine

/-- `self.agents = self.buyers.union(self.sellers)`, fixed at construction. -/
def agents (e : MarketEngine) : Finset AgentId :=
  e.buyers ∪ e.sellers

/-- `MarketEngine.reset`. -/
def reset (e : MarketEngine) : MarketEngine :=
  { e with time := 0, done := ∅, offer_history := [], deal_history := [] }

/-- `MarketEngine.__init__(buyers, sellers, max_steps)`. -/
def init (buyers sellers : Finset AgentId) (max_steps : Nat) : MarketEngine :=
  reset
    { buyers := buyers, sellers := sellers, max_steps := max_steps,
      time := 0, done := ∅, offer_history := [], deal_history := [] }

/-- The offer-collection loop at the top of `MarketEngine.step`: iterate the
`offers` dict in insertion order; skip agents already in `done`; route buyers
to `bids` and sellers to `asks`; an unknown agent raises (modelled `none`). -/
def collect (e : MarketEngine) :
    List (AgentId × Price) → Option (List (Price × AgentId) × List (Price × AgentId))
  | [] => some ([], [])
  | (agent_id, offer) :: rest =>
    if agent_id ∈ e.done then collect e rest
    else if agent_id ∈ e.buyers then
      (collect e rest).map (fun ba => ((offer, agent_id) :: ba.1, ba.2))
    else if agent_id ∈ e.sellers then
      (collect e rest).map (fun ba => (ba.1, (offer, agent_id) :: ba.2))
    else none

/-- The ids added to `done` by `for agent_id in deals: self.done.add(agent_id)`. -/
def dealIds (deals : List (AgentId × Price)) : Finset AgentId :=
  (deals.map Prod.fst).toFinset

/-- `MarketEngine.step(offers)`.  Returns `none` when the unknown-agent error
is raised (in which case no state was mutated), otherwise the returned deals
and the updated engine.  Note that the histories receive the lists **after**
`match` sorted them in place. -/
def step (e : MarketEngine) (offers : List (AgentId × Price)) :
    Option (List (AgentId × Price) × MarketEngine) :=
  match collect e offers with
  | none => none
  | some (bids, asks) =>
    let m := matchEffect bids asks
    let deals := m.1
    let time' := e.time + 1
    let done' := e.done ∪ dealIds deals
    let done'' :=
      if time' ≥ e.max_steps ∨ e.buyers ⊆ done' ∨ e.sellers ⊆ done' then
        e.buyers ∪ e.sellers
      else done'
    some (deals,
      { e with
        time := time',
        done := done'',
        deal_history := e.deal_history ++ [deals],
        offer_history := e.offer_history ++ [(m.2.1, m.2.2)] })

/-- Iterate `step` with empty offers (`m.step({})`) `n` times. -/
def stepEmptyN : Nat → MarketEngine → Option MarketEngine
  | 0, e => some e
  | n + 1, e =>
    match step e [] with
    | none => none
    | some de => stepEmptyN n de.2

/-- Run a whole sequence of `step` calls, one offers dict per round. -/
def stepSeq : MarketEngine → List (List (AgentId × Price)) → Option MarketEngine
  | e, [] => some e
  | e, offers :: rest =>
    match step e offers with
    | none => none
    | some de => stepSeq de.2 rest

end MarketEngine

/-- Engine and offers for the stored-round-record counterexample: buyers 0, 1
and seller 2; buyer offers arrive in the order 0 (bid 90) then 1 (bid 100). -/
def cexEngine : MarketEngine := MarketEngine.init {0, 1} {2} 30

/-- The offers dict of the counterexample, in insertion order. -/
def cexOffers : List (AgentId × Price) := [(0, 90), (1, 100), (2, 200)]

/-- A concrete fully-terminated engine that is already past its round limit. -/
def termEngine : MarketEngine :=
  { buyers := {0}, sellers := {1}, max_steps := 2, time := 5, done := {0, 1},
    offer_history := [], deal_history := [] }

/-- Unfolding `step` once the offer-collection loop has succeeded. -/
lemma step_eq_of_collect {e : MarketEngine} {offers : List (AgentId × Price)}
    {bids asks : List (Price × AgentId)} (hc : e.collect offers = some (bids, asks)) :
    e.step offers = some (matchFn bids asks,
      { e with
        time := e.time + 1,
        done :=
          if e.time + 1 ≥ e.max_steps ∨ e.buyers ⊆ e.done ∪ MarketEngine.dealIds (matchFn bids asks)
              ∨ e.sellers ⊆ e.done ∪ MarketEngine.dealIds (matchFn bids asks) then
            e.buyers ∪ e.sellers
          else e.done ∪ MarketEngine.dealIds (matchFn bids asks),
        deal_history := e.deal_history ++ [matchFn bids asks],
        offer_history := e.offer_history ++ [(sortBids bids, sortAsks asks)] }) := by
  unfold MarketEngine.step
  rw [hc]
  rfl

/-- Inversion for a successful `step`: the collected bid/ask lists exist and
every field of the successor state is determined by them. -/
lemma step_some_fields {e : MarketEngine} {offers : List (AgentId × Price)}
    {deals : List (AgentId × Price)} {e' : MarketEngine}
    (h : e.step offers = some (deals, e')) :
    ∃ bids asks, e.collect offers = some (bids, asks) ∧ deals = matchFn bids asks ∧
      e'.buyers = e.buyers ∧ e'.sellers = e.sellers ∧ e'.max_steps = e.max_steps ∧
      e'.time = e.time + 1 ∧
      e'.offer_history = e.offer_history ++ [(sortBids bids, sortAsks asks)] ∧
      e'.deal_history = e.deal_history ++ [deals] ∧
      e'.done =
        if e.time + 1 ≥ e.max_steps ∨ e.buyers ⊆ e.done ∪ MarketEngine.dealIds deals
            ∨ e.sellers ⊆ e.done ∪ MarketEngine.dealIds deals then
          e.buyers ∪ e.sellers
        else e.done ∪ MarketEngine.dealIds deals := by
  rcases hc : e.collect offers with _ | ⟨bids, asks⟩
  · unfold MarketEngine.step at h
    rw [hc] at h
    exact Option.noConfusion h
  · refine ⟨bids, asks, rfl, ?_⟩
    rw [step_eq_of_collect hc, Option.some_inj] at h
    injection h with h1 h2
    subst h1
    subst h2
    exact ⟨rfl, rfl, rfl, rfl, rfl, rfl, rfl, rfl⟩

/-- Sorting the bid list is idempotent. -/
lemma sortBids_idem (l : List (Price × AgentId)) : sortBids (sortBids l) = sortBids l :=
  (List.sorted_insertionSort bidOrder l).insertionSort_eq

/-- Sorting the ask list is idempotent. -/
lemma sortAsks_idem (l : List (Price × AgentId)) : sortAsks (sortAsks l) = sortAsks l :=
  (List.sorted_insertionSort askOrder l).insertionSort_eq

/-- C7: `reset` is idempotent: a second `reset` leaves the engine exactly as a
single one does (time 0, empty `done`, empty histories), and `reset` does not
change the buyer/seller id sets or `max_steps`. -/
theorem reset_idempotent :
    ∀ e : MarketEngine,
      e.reset.reset = e.reset ∧ e.reset.buyers = e.buyers ∧ e.reset.sellers = e.sellers ∧
      e.reset.max_steps = e.max_steps ∧ e.reset.time = 0 ∧ e.reset.done = ∅ ∧
      e.reset.offer_history = [] ∧ e.reset.deal_history = [] :=
  fun _ => ⟨rfl, rfl, rfl, rfl, rfl, rfl, rfl, rfl⟩

/-- C4: on the spec's concrete inputs, `match` returns exactly the stated
deals: the 100/100 pair matches at 100, the 95-versus-105 failure stops the
loop, ids 1, 2, 3, 5 get no entry; and with one bid against asks 50 and 200
the single pairing yields 75 for both sides and index 1 is never examined. -/
theorem match_concrete_results :
    matchFn [(100, 0), (90, 1), (95, 2)] [(110, 3), (100, 4), (105, 5)]
        = [(0, 100), (4, 100)] ∧
    dictGet (matchFn [(100, 0), (90, 1), (95, 2)] [(110, 3), (100, 4), (105, 5)]) 1 = none ∧
    dictGet (matchFn [(100, 0), (90, 1), (95, 2)] [(110, 3), (100, 4), (105, 5)]) 2 = none ∧
    dictGet (matchFn [(100, 0), (90, 1), (95, 2)] [(110, 3), (100, 4), (105, 5)]) 3 = none ∧
    dictGet (matchFn [(100, 0), (90, 1), (95, 2)] [(110, 3), (100, 4), (105, 5)]) 5 = none ∧
    matchFn [(100, 6)] [(50, 7), (200, 8)] = [(6, 75), (7, 75)] ∧
    (∀ b s1 s2 : AgentId, b ≠ s1 →
      matchFn [(100, b)] [(50, s1), (200, s2)] = [(b, 75), (s1, 75)]) := by
  refine ⟨?_, ?_, ?_, ?_, ?_, ?_, ?_⟩
  · norm_num [matchFn, sortBids, sortAsks, List.insertionSort, List.orderedInsert,
      bidOrder, askOrder, matchLoop, dictSet]
  · norm_num [matchFn, sortBids, sortAsks, List.insertionSort, List.orderedInsert,
      bidOrder, askOrder, matchLoop, dictSet, dictGet]
  · norm_num [matchFn, sortBids, sortAsks, List.insertionSort, List.orderedInsert,
      bidOrder, askOrder, matchLoop, dictSet, dictGet]
  · norm_num [matchFn, sortBids, sortAsks, List.insertionSort, List.orderedInsert,
      bidOrder, askOrder, matchLoop, dictSet, dictGet]
  · norm_num [matchFn, sortBids, sortAsks, List.insertionSort, List.orderedInsert,
      bidOrder, askOrder, matchLoop, dictSet, dictGet]
  · norm_num [matchFn, sortBids, sortAsks, List.insertionSort, List.orderedInsert,
      bidOrder, askOrder, matchLoop, dictSet]
  · intro b s1 s2 hb
    have h1 : sortAsks [(50, s1), (200, s2)] = [(50, s1), (200, s2)] := by
      norm_num [sortAsks, List.insertionSort, List.orderedInsert, askOrder]
    have h2 : sortBids [(100, b)] = [(100, b)] := rfl
    rw [matchFn, h1, h2]
    rw [matchLoop]
    norm_num [matchLoop, dictSet, hb]

/-- Closed witness for the symbolic-id early-exit case at ids 6, 7, 8. -/
theorem match_concrete_results_witness :
    (6 : AgentId) ≠ 7 ∧ matchFn [(100, 6)] [(50, 7), (200, 8)] = [(6, 75), (7, 75)] :=
  ⟨by decide, match_concrete_results.2.2.2.2.2.2 6 7 8 (by decide)⟩

/-- C3 counterexample: `match` does mutate its caller-visible inputs: on the
bid list `[(90, 0), (100, 1)]` (and no asks) the list the caller holds after
the call is the sorted `[(100, 1), (90, 0)]`, not the original. -/
theorem match_mutates_inputs_cex :
    matchEffect [(90, 0), (100, 1)] [] = ([], [(100, 1), (90, 0)], []) ∧
    ([((100 : Price), (1 : AgentId)), (90, 0)] ≠ [(90, 0), (100, 1)]) := by
  constructor
  · norm_num [matchEffect, matchFn, sortBids, sortAsks, List.insertionSort,
      List.orderedInsert, bidOrder, askOrder, matchLoop]
  · norm_num

/-- C3 amended: `match` sorts its input lists in place (the caller sees them
sorted afterwards), but it is deterministic, and a repeated call on the
mutated inputs returns the same deals and leaves the lists unchanged. -/
theorem match_inplace_sort_deterministic :
    ∀ bids asks : List (Price × AgentId),
      (matchEffect bids asks).2.1 = sortBids bids ∧
      (matchEffect bids asks).2.2 = sortAsks asks ∧
      matchEffect (matchEffect bids asks).2.1 (matchEffect bids asks).2.2
        = matchEffect bids asks := by
  intro bids asks
  refine ⟨rfl, rfl, ?_⟩
  simp only [matchEffect, matchFn, sortBids_idem, sortAsks_idem]

/-- C8 counterexample: two bids with the same price 100 submitted in id order
0 then 1 are reordered by the sort (the whole `(price, id)` tuple is the key),
so buyer 1, not the first-submitted buyer 0, is paired first. -/
theorem tie_break_insertion_order_cex :
    sortBids [(100, 0), (100, 1)] = [(100, 1), (100, 0)] ∧
    matchFn [(100, 0), (100, 1)] [(90, 5)] = [(1, 95), (5, 95)] := by
  constructor <;>
    norm_num [matchFn, sortBids, sortAsks, List.insertionSort, List.orderedInsert,
      bidOrder, askOrder, matchLoop, dictSet]

/-- C8 amended: equal-price ties are broken by the agent-id component of the
tuple — descending among bids, ascending among asks — independently of the
insertion order, because Python compares whole `(price, id)` tuples. -/
theorem tie_break_by_agent_id :
    ∀ (p : Price) (i j : AgentId), i < j →
      sortBids [(p, i), (p, j)] = [(p, j), (p, i)] ∧
      sortBids [(p, j), (p, i)] = [(p, j), (p, i)] ∧
      sortAsks [(p, i), (p, j)] = [(p, i), (p, j)] ∧
      sortAsks [(p, j), (p, i)] = [(p, i), (p, j)] := by
  intro p i j hij
  refine ⟨?_, ?_, ?_, ?_⟩ <;>
    simp [sortBids, sortAsks, List.insertionSort, List.orderedInsert, bidOrder,
      askOrder, not_le.mpr hij, le_of_lt hij]

/-- Closed witness for the tie-break theorem at price 7 and ids 0 < 1. -/
theorem tie_break_by_agent_id_witness :
    (0 : AgentId) < 1 ∧ sortBids [(7, 0), (7, 1)] = [(7, 1), (7, 0)] :=
  ⟨by decide, (tie_break_by_agent_id 7 0 1 (by decide)).1⟩

/-- An offer from an agent that is in none of `done`, `buyers`, `sellers`
makes the collection loop raise (`none`), wherever it sits in the dict. -/
lemma collect_none_of_unknown {e : MarketEngine} {offers : List (AgentId × Price)}
    {a : AgentId} {p : Price} (hmem : (a, p) ∈ offers) (hd : a ∉ e.done)
    (hb : a ∉ e.buyers) (hs : a ∉ e.sellers) : e.collect offers = none := by
  induction offers with
  | nil => simp at hmem
  | cons x tl ih =>
    obtain ⟨b, q⟩ := x
    rcases List.mem_cons.mp hmem with heq | htl
    · injection heq with h1 h2
      subst h1
      simp [MarketEngine.collect, hd, hb, hs]
    · have hnone := ih htl
      simp only [MarketEngine.collect]
      split_ifs <;> simp [hnone]

/-- If every offer key is already in `done`, the collection loop skips all of
them and returns two empty lists. -/
lemma collect_of_all_done {e : MarketEngine} :
    ∀ offers : List (AgentId × Price), (∀ x ∈ offers, x.1 ∈ e.done) →
      e.collect offers = some ([], []) := by
  intro offers
  induction offers with
  | nil => intro _; rfl
  | cons x tl ih =>
    intro h
    obtain ⟨a, p⟩ := x
    have ha : a ∈ e.done := h (a, p) (List.mem_cons_self (a, p) tl)
    exact (by simp [MarketEngine.collect, ha,
      ih fun y hy => h y (List.mem_cons_of_mem _ hy)])

/-- C2: a `step` whose offers contain a key that is neither a (non-exited)
buyer nor a seller raises the unknown-agent error; no successor state is
produced, so `round`, the histories and `exited` are those of the pre-call
engine (the error aborts before any mutation). -/
theorem step_unknown_agent_aborts :
    ∀ (e : MarketEngine) (offers : List (AgentId × Price)) (a : AgentId) (p : Price),
      (a, p) ∈ offers → a ∉ e.done → a ∉ e.buyers → a ∉ e.sellers →
      e.step offers = none := by
  intro e offers a p hmem hd hb hs
  unfold MarketEngine.step
  rw [collect_none_of_unknown hmem hd hb hs]

/-- Closed witness: one valid buyer offer plus one offer from unknown agent 9
makes `step` abort. -/
theorem step_unknown_agent_aborts_witness :
    ((9, 5) ∈ [((0 : AgentId), (5 : Price)), (9, 5)] ∧
      (9 : AgentId) ∉ (MarketEngine.init {0} {1} 30).done ∧
      (9 : AgentId) ∉ (MarketEngine.init {0} {1} 30).buyers ∧
      (9 : AgentId) ∉ (MarketEngine.init {0} {1} 30).sellers) ∧
    (MarketEngine.init {0} {1} 30).step [(0, 5), (9, 5)] = none := by
  refine ⟨⟨by decide, by decide, by decide, by decide⟩, ?_⟩
  exact step_unknown_agent_aborts (MarketEngine.init {0} {1} 30) [(0, 5), (9, 5)] 9 5
    (by decide) (by decide) (by decide) (by decide)

/-- C1 counterexample: the collected submission-order bid list is
`[(90, 0), (100, 1)]`, but the round record appended to `offer_history` holds
the price-sorted `[(100, 1), (90, 0)]` — `match` sorted the very list objects
in place before they were appended, so the stored record is not in
submission order. -/
theorem offerHistory_presort_cex :
    cexEngine.collect cexOffers = some ([(90, 0), (100, 1)], [(200, 2)]) ∧
    (cexEngine.step cexOffers).map (fun p => p.2.offer_history)
      = some [([(100, 1), (90, 0)], [(200, 2)])] ∧
    [((100 : Price), (1 : AgentId)), (90, 0)] ≠ [(90, 0), (100, 1)] := by
  refine ⟨by decide, by decide, by decide⟩

/-- C1 amended: the round record appended to `offer_history` is the pair of
the collected bid and ask lists **after** the Matcher's in-place sort (bids
descending, asks ascending, whole-tuple key), not the pre-sort submission
order. -/
theorem offerHistory_stores_sorted :
    ∀ (e : MarketEngine) (offers : List (AgentId × Price)) bids asks deals e',
      e.collect offers = some (bids, asks) → e.step offers = some (deals, e') →
      e'.offer_history = e.offer_history ++ [(sortBids bids, sortAsks asks)] := by
  intro e offers bids asks deals e' hc hstep
  rw [step_eq_of_collect hc, Option.some_inj] at hstep
  injection hstep with h1 h2
  subst h2
  rfl

/-- Closed witness: the amended statement at the counterexample input. -/
theorem offerHistory_stores_sorted_witness :
    cexEngine.collect cexOffers = some ([(90, 0), (100, 1)], [(200, 2)]) ∧
    ∃ d e', cexEngine.step cexOffers = some (d, e') ∧
      e'.offer_history
        = cexEngine.offer_history ++ [(sortBids [(90, 0), (100, 1)], sortAsks [(200, 2)])] := by
  have hc : cexEngine.collect cexOffers = some ([(90, 0), (100, 1)], [(200, 2)]) := by decide
  have hstep := step_eq_of_collect hc
  exact ⟨hc, _, _, hstep,
    offerHistory_stores_sorted cexEngine cexOffers _ _ _ _ hc hstep⟩

/-- The Matcher on two empty lists returns the empty deals dict. -/
lemma matchFn_nil : matchFn [] [] = [] := rfl

/-- Sorting the empty bid list. -/
lemma sortBids_nil : sortBids [] = [] := rfl

/-- Sorting the empty ask list. -/
lemma sortAsks_nil : sortAsks [] = [] := rfl

/-- One empty-offers step always succeeds: nobody bids, nobody asks, no deal;
`time` advances and the termination test runs on the unchanged `done`. -/
lemma stepEmptyN_succ_eq (n : Nat) (e : MarketEngine) :
    MarketEngine.stepEmptyN (n + 1) e
      = MarketEngine.stepEmptyN n
          { e with
            time := e.time + 1,
            done :=
              if e.time + 1 ≥ e.max_steps ∨ e.buyers ⊆ e.done ∨ e.sellers ⊆ e.done then
                e.buyers ∪ e.sellers
              else e.done,
            offer_history := e.offer_history ++ [([], [])],
            deal_history := e.deal_history ++ [[]] } := by
  have hc : e.collect [] = some ([], []) := rfl
  conv_lhs => rw [MarketEngine.stepEmptyN]
  rw [step_eq_of_collect hc]
  show MarketEngine.stepEmptyN n _ = MarketEngine.stepEmptyN n _
  congr 1
  simp [MarketEngine.dealIds, matchFn_nil, sortBids_nil, sortAsks_nil]

/-- Iterating empty-offers steps: all identity fields persist, `time` adds
`n`, and as soon as at least one step runs and the round budget is spent by
the end, the final `done` is the full buyer/seller union. -/
lemma stepEmptyN_props :
    ∀ (n : Nat) (e : MarketEngine), ∃ e',
      MarketEngine.stepEmptyN n e = some e' ∧
      e'.buyers = e.buyers ∧ e'.sellers = e.sellers ∧ e'.max_steps = e.max_steps ∧
      e'.time = e.time + n ∧ (n = 0 → e' = e) ∧
      (1 ≤ n → e.max_steps ≤ e.time + n → e'.done = e.buyers ∪ e.sellers) := by
  intro n
  induction n with
  | zero =>
    intro e
    exact ⟨e, rfl, rfl, rfl, rfl, rfl, fun _ => rfl, fun h _ => absurd h (by omega)⟩
  | succ k ih =>
    intro e
    rw [stepEmptyN_succ_eq]
    obtain ⟨e', h1, hb, hs, hm, ht, h0, hdone⟩ := ih _
    refine ⟨e', h1, hb, hs, hm, ?_, fun hk0 => absurd hk0 (by omega), ?_⟩
    · have ht' : e'.time = e.time + 1 + k := ht
      omega
    · intro _ hmax
      rcases Nat.eq_zero_or_pos k with hk | hk
      · subst hk
        rw [h0 rfl]
        exact if_pos (Or.inl (by omega))
      · have hd := hdone hk (show e.max_steps ≤ e.time + 1 + k by omega)
        exact hd

/-- Invariant propagation along a whole sequence of successful steps: if
`time` matches both history lengths at the start, it does at the end. -/
lemma stepSeq_inv :
    ∀ (l : List (List (AgentId × Price))) (e e' : MarketEngine),
      e.time = e.offer_history.length → e.time = e.deal_history.length →
      MarketEngine.stepSeq e l = some e' →
      e'.time = e'.offer_history.length ∧ e'.time = e'.deal_history.length := by
  intro l
  induction l with
  | nil =>
    intro e e' h1 h2 hrun
    rw [MarketEngine.stepSeq, Option.some_inj] at hrun
    subst hrun
    exact ⟨h1, h2⟩
  | cons o tl ih =>
    intro e e' h1 h2 hrun
    rcases hstep : e.step o with _ | ⟨d, e1⟩
    · rw [MarketEngine.stepSeq, hstep] at hrun
      exact Option.noConfusion hrun
    · rw [MarketEngine.stepSeq, hstep] at hrun
      obtain ⟨bids, asks, _, _, _, _, _, htime, hoh, hdh, _⟩ := step_some_fields hstep
      refine ih e1 e' ?_ ?_ hrun
      · rw [htime, hoh]
        simp [h1]
      · rw [htime, hdh]
        simp [h2]

/-- C5: whenever a successful `step` satisfies the post-mutation termination
test — the incremented round has reached `max_steps`, or all buyers, or all
sellers, are in the updated `done` set — the resulting `done` is the full
union of the buyer and seller id sets; in particular with 1 buyer and 3
sellers one match exits all four agents, and stepping a 1-buyer/1-seller
market with empty offers `max_steps = 3` times ends with `done` the full
universe and `time = 3`. -/
theorem step_forced_termination :
    (∀ (e : MarketEngine) (offers deals : List (AgentId × Price)) (e' : MarketEngine),
      e.step offers = some (deals, e') →
      (e.time + 1 ≥ e.max_steps ∨ e.buyers ⊆ e.done ∪ MarketEngine.dealIds deals
        ∨ e.sellers ⊆ e.done ∪ MarketEngine.dealIds deals) →
      e'.done = e.buyers ∪ e.sellers) ∧
    ((MarketEngine.init {0} {1, 2, 3} 30).step [(0, 100), (1, 100)]).map
        (fun p => p.2.done) = some {0, 1, 2, 3} ∧
    (MarketEngine.stepEmptyN 3 (MarketEngine.init {0} {4} 3)).map
        (fun e => (e.done, e.time)) = some ({0, 4}, 3) ∧
    (∀ (b s : Finset AgentId) (m : Nat) (e' : MarketEngine), 1 ≤ m →
      MarketEngine.stepEmptyN m (MarketEngine.init b s m) = some e' →
      e'.done = b ∪ s ∧ e'.time = m) := by
  refine ⟨?_, by decide, by decide, ?_⟩
  · intro e offers deals e' h hcond
    obtain ⟨bids, asks, hc, hdeals, _, _, _, _, _, _, hdone⟩ := step_some_fields h
    rw [hdone, if_pos hcond]
  · intro b s m e' hm hrun
    obtain ⟨e'', hrun', _, _, _, htime, _, hdone⟩ := stepEmptyN_props m (MarketEngine.init b s m)
    rw [hrun'] at hrun
    rw [Option.some_inj] at hrun
    subst hrun
    have ht2 : e''.time = 0 + m := htime
    exact ⟨hdone hm (show m ≤ 0 + m by omega), by omega⟩

/-- Closed witness for the general termination rule: in the 1-buyer/3-seller
market the buyer set is contained in the post-deal `done`, and the successor
state's `done` is the full union. -/
theorem step_forced_termination_witness :
    (∃ d e', (MarketEngine.init {0} {1, 2, 3} 30).step [(0, 100), (1, 100)] = some (d, e') ∧
      e'.done = (MarketEngine.init {0} {1, 2, 3} 30).buyers
        ∪ (MarketEngine.init {0} {1, 2, 3} 30).sellers) ∧
    (∃ e', MarketEngine.stepEmptyN 2 (MarketEngine.init {0} {1} 2) = some e' ∧
      e'.done = ({0} : Finset AgentId) ∪ {1} ∧ e'.time = 2) := by
  constructor
  · have hc : (MarketEngine.init {0} {1, 2, 3} 30).collect [(0, 100), (1, 100)]
        = some ([(100, 0)], [(100, 1)]) := by decide
    have hstep := step_eq_of_collect hc
    refine ⟨_, _, hstep, step_forced_termination.1 _ _ _ _ hstep (Or.inr (Or.inl ?_))⟩
    decide
  · obtain ⟨e', hrun, _, _, _, _, _, _⟩ := stepEmptyN_props 2 (MarketEngine.init {0} {1} 2)
    obtain ⟨hd, ht⟩ := step_forced_termination.2.2.2 {0} {1} 2 e' (by omega) hrun
    exact ⟨e', hrun, hd, ht⟩

/-- C6: `round` (`time`) is 0 and both histories are empty after construction
and after `reset`; every successful `step` increments `time` by exactly 1 and
appends exactly one entry to each history, so the invariant
`time = |offer_history| = |deal_history|` is preserved. -/
theorem round_equals_history_lengths :
    (∀ (b s : Finset AgentId) (m : Nat),
      (MarketEngine.init b s m).time = (MarketEngine.init b s m).offer_history.length ∧
      (MarketEngine.init b s m).time = (MarketEngine.init b s m).deal_history.length) ∧
    (∀ e : MarketEngine,
      e.reset.time = e.reset.offer_history.length ∧
      e.reset.time = e.reset.deal_history.length) ∧
    (∀ (e : MarketEngine) (offers deals : List (AgentId × Price)) (e' : MarketEngine),
      e.step offers = some (deals, e') →
      e'.time = e.time + 1 ∧
      ((e.time = e.offer_history.length ∧ e.time = e.deal_history.length) →
        e'.time = e'.offer_history.length ∧ e'.time = e'.deal_history.length)) ∧
    (∀ (e0 : MarketEngine) (l : List (List (AgentId × Price))) (e' : MarketEngine),
      MarketEngine.stepSeq e0.reset l = some e' →
      e'.time = e'.offer_history.length ∧ e'.time = e'.deal_history.length) := by
  refine ⟨fun b s m => ⟨rfl, rfl⟩, fun e => ⟨rfl, rfl⟩, ?_,
    fun e0 l e' h => stepSeq_inv l e0.reset e' rfl rfl h⟩
  intro e offers deals e' h
  obtain ⟨bids, asks, hc, hdeals, _, _, _, htime, hoh, hdh, _⟩ := step_some_fields h
  refine ⟨htime, fun h12 => ⟨?_, ?_⟩⟩
  · rw [htime, hoh]
    simp [h12.1]
  · rw [htime, hdh]
    simp [h12.2]

/-- Closed witness: one empty-offers step from a fresh 1-buyer/1-seller
engine keeps the round/history-length invariant with `time = 1`. -/
theorem round_equals_history_lengths_witness :
    (∃ d e', (MarketEngine.init {0} {1} 30).step [] = some (d, e') ∧ e'.time = 1 ∧
      e'.time = e'.offer_history.length ∧ e'.time = e'.deal_history.length) ∧
    (∃ e', MarketEngine.stepSeq (MarketEngine.init {0} {1} 30).reset [[]] = some e' ∧
      e'.time = e'.offer_history.length ∧ e'.time = e'.deal_history.length) := by
  constructor
  · have hc : (MarketEngine.init {0} {1} 30).collect [] = some ([], []) := rfl
    have hstep := step_eq_of_collect hc
    obtain ⟨ht, himp⟩ := round_equals_history_lengths.2.2.1 _ _ _ _ hstep
    exact ⟨_, _, hstep, ht, himp ⟨rfl, rfl⟩⟩
  · have hrun : MarketEngine.stepSeq (MarketEngine.init {0} {1} 30).reset [[]]
        = some { buyers := {0}, sellers := {1}, max_steps := 30, time := 1, done := ∅,
                 offer_history := [([], [])], deal_history := [[]] } := by decide
    exact ⟨_, hrun, round_equals_history_lengths.2.2.2 _ _ _ hrun⟩

/-- C9: if one whole side is empty (no buyers, or no sellers), any successful
`step` — the very first one included, with empty offers — trips the
termination rule vacuously and sets `done` to the full buyer/seller union. -/
theorem empty_side_immediate_termination :
    ∀ (e : MarketEngine) (offers deals : List (AgentId × Price)) (e' : MarketEngine),
      (e.buyers = ∅ ∨ e.sellers = ∅) → e.step offers = some (deals, e') →
      e'.done = e.buyers ∪ e.sellers := by
  intro e offers deals e' hemp h
  obtain ⟨bids, asks, hc, hdeals, _, _, _, _, _, _, hdone⟩ := step_some_fields h
  have hcond : e.time + 1 ≥ e.max_steps
      ∨ e.buyers ⊆ e.done ∪ MarketEngine.dealIds deals
      ∨ e.sellers ⊆ e.done ∪ MarketEngine.dealIds deals := by
    rcases hemp with h0 | h0
    · exact Or.inr (Or.inl (by rw [h0]; exact Finset.empty_subset _))
    · exact Or.inr (Or.inr (by rw [h0]; exact Finset.empty_subset _))
  rw [hdone, if_pos hcond]

/-- Closed witness: with no buyers at all, the first empty-offers step exits
the whole (seller) universe. -/
theorem empty_side_immediate_termination_witness :
    ∃ d e', (MarketEngine.init ∅ {1, 2} 30).step [] = some (d, e') ∧
      e'.done = (MarketEngine.init ∅ {1, 2} 30).buyers
        ∪ (MarketEngine.init ∅ {1, 2} 30).sellers := by
  have hc : (MarketEngine.init ∅ {1, 2} 30).collect [] = some ([], []) := rfl
  have hstep := step_eq_of_collect hc
  exact ⟨_, _, hstep,
    empty_side_immediate_termination _ _ _ _ (Or.inl rfl) hstep⟩

/-- C10: once `done` is the full buyer/seller union, a further `step` whose
offers are keyed by registered agents succeeds, returns no deals, appends the
empty round record `([], [])` and the empty deals dict, keeps `done` at the
full union, and still increments `time` by 1 — nothing caps `time` at
`max_steps`. -/
theorem step_after_termination :
    ∀ (e : MarketEngine) (offers : List (AgentId × Price)),
      e.done = e.buyers ∪ e.sellers → (∀ x ∈ offers, x.1 ∈ e.buyers ∪ e.sellers) →
      e.step offers = some ([],
        { e with
          time := e.time + 1,
          done := e.buyers ∪ e.sellers,
          offer_history := e.offer_history ++ [([], [])],
          deal_history := e.deal_history ++ [[]] }) := by
  intro e offers hdone hkeys
  have hc : e.collect offers = some ([], []) :=
    collect_of_all_done offers (fun x hx => by rw [hdone]; exact hkeys x hx)
  rw [step_eq_of_collect hc]
  have hsub : e.buyers ⊆ e.done ∪ MarketEngine.dealIds (matchFn [] []) := by
    rw [hdone]
    exact fun a ha => Finset.mem_union_left _ (Finset.mem_union_left _ ha)
  rw [if_pos (Or.inr (Or.inl hsub))]
  rfl

/-- Closed witness: the terminated engine `termEngine` (`time = 5`,
`max_steps = 2`) accepts a stale buyer offer, returns no deals, and moves on
to `time = 6 > max_steps`. -/
theorem step_after_termination_witness :
    termEngine.step [(0, 10)] = some ([],
      { termEngine with
        time := 6,
        done := termEngine.buyers ∪ termEngine.sellers,
        offer_history := [([], [])],
        deal_history := [[]] }) ∧
    (6 : Nat) > termEngine.max_steps :=
  ⟨step_after_termination termEngine [(0, 10)] (by decide) (by decide), by decide⟩

end DMarket
